import Mathlib

/-!
Shallow embedding of the glyph-editing core of `src/Letter_Playground.js`
(class `GlyphModel`, class `Editor`, and the path utilities).  JavaScript
numbers are modelled as real numbers, the mutable array of path commands as
a `List Cmd`, and each mutating method as a pure state-passing function.
Rendering, DOM and file-IO code is outside the model.
-/

namespace LetterPlayground

/-- opentype.js path commands as produced by `Glyph.getPath` and consumed by
the whole sketch: `{type:'M',x,y}`, `{type:'L',x,y}`,
`{type:'C',x1,y1,x2,y2,x,y}`, `{type:'Q',x1,y1,x,y}`, `{type:'Z'}`. -/
inductive Cmd where
  | M (x y : ℝ)
  | L (x y : ℝ)
  | C (x1 y1 x2 y2 x y : ℝ)
  | Q (x1 y1 x y : ℝ)
  | Z

/-- the command's own `(x, y)` fields (the end anchor); `Z` has none. -/
def getXY : Cmd → Option (ℝ × ℝ)
  | .M x y => some (x, y)
  | .L x y => some (x, y)
  | .C _ _ _ _ x y => some (x, y)
  | .Q _ _ x y => some (x, y)
  | .Z => none

/-- the command's `(x1, y1)` fields, present on cubic and quadratic commands. -/
def getC1 : Cmd → Option (ℝ × ℝ)
  | .C x1 y1 _ _ _ _ => some (x1, y1)
  | .Q x1 y1 _ _ => some (x1, y1)
  | _ => none

/-- the command's `(x2, y2)` fields, present on cubic commands. -/
def getC2 : Cmd → Option (ℝ × ℝ)
  | .C _ _ x2 y2 _ _ => some (x2, y2)
  | _ => none

/-- assignment `c.x1 = x; c.y1 = y` for commands that carry those fields
(the source only reaches this for cubic and quadratic commands). -/
def setC1 (c : Cmd) (x y : ℝ) : Cmd :=
  match c with
  | .C _ _ x2 y2 xe ye => .C x y x2 y2 xe ye
  | .Q _ _ xe ye => .Q x y xe ye
  | c => c

/-- assignment `c.x2 = x; c.y2 = y` for cubic commands. -/
def setC2 (c : Cmd) (x y : ℝ) : Cmd :=
  match c with
  | .C x1 y1 _ _ xe ye => .C x1 y1 x y xe ye
  | c => c

/-- is this command a cubic (`type === 'C'`)? -/
def isC : Cmd → Bool
  | .C _ _ _ _ _ _ => true
  | _ => false

/-- all anchor and control points a command contributes to the bounding box. -/
def cmdPoints : Cmd → List (ℝ × ℝ)
  | .M x y => [(x, y)]
  | .L x y => [(x, y)]
  | .C x1 y1 x2 y2 x y => [(x1, y1), (x2, y2), (x, y)]
  | .Q x1 y1 x y => [(x1, y1), (x, y)]
  | .Z => []

/-- every point of a command list, in drawing order. -/
def allPoints (cmds : List Cmd) : List (ℝ × ℝ) :=
  (cmds.map cmdPoints).flatten

/-- axis-aligned box `{x, y, w, h}` as returned by `bboxOf`. -/
structure Bbox where
  x : ℝ
  y : ℝ
  w : ℝ
  h : ℝ

/-- Modelled from the spec: the source `bboxOf` delegates to
`opentype.Path.getBoundingBox`, a third-party library routine whose code is
not in this repository.  Spec section 4.1 specifies the contract: the
axis-aligned box enclosing all anchor and control points of the path, and a
zero-area box for an empty path. -/
noncomputable def bboxOf (cmds : List Cmd) : Bbox :=
  match allPoints cmds with
  | [] => ⟨0, 0, 0, 0⟩
  | p :: ps =>
    let x1 := ps.foldl (fun a q => min a q.1) p.1
    let y1 := ps.foldl (fun a q => min a q.2) p.2
    let x2 := ps.foldl (fun a q => max a q.1) p.1
    let y2 := ps.foldl (fun a q => max a q.2) p.2
    ⟨x1, y1, x2 - x1, y2 - y1⟩

/-- transform parameters `{width, height, weight, slant, roundness}`. -/
structure Params where
  width : ℝ
  height : ℝ
  weight : ℝ
  slant : ℝ
  roundness : ℝ

/-- the defaults `{width:1, height:1, weight:0, slant:0, roundness:0}`. -/
def defaultParams : Params := ⟨1, 1, 0, 0, 0⟩

/-- p5.js `lerp(start, stop, amt) = start + (stop - start) * amt`. -/
def lerp (a b t : ℝ) : ℝ := a + (b - a) * t

/-- slant step of `applyParams`: `x += y * tanv` on every coordinate pair. -/
def slantCmd (tv : ℝ) : Cmd → Cmd
  | .M x y => .M (x + y * tv) y
  | .L x y => .L (x + y * tv) y
  | .C x1 y1 x2 y2 x y => .C (x1 + y1 * tv) y1 (x2 + y2 * tv) y2 (x + y * tv) y
  | .Q x1 y1 x y => .Q (x1 + y1 * tv) y1 (x + y * tv) y
  | .Z => .Z

/-- scale step of `applyParams`: every x-coordinate is mapped to
`(x - bb.x) * width + bb.x` and every y-coordinate to
`(y - bb.y) * height + bb.y`. -/
def scaleCmd (bb : Bbox) (w h : ℝ) : Cmd → Cmd
  | .M x y => .M ((x - bb.x) * w + bb.x) ((y - bb.y) * h + bb.y)
  | .L x y => .L ((x - bb.x) * w + bb.x) ((y - bb.y) * h + bb.y)
  | .C x1 y1 x2 y2 x y =>
      .C ((x1 - bb.x) * w + bb.x) ((y1 - bb.y) * h + bb.y)
        ((x2 - bb.x) * w + bb.x) ((y2 - bb.y) * h + bb.y)
        ((x - bb.x) * w + bb.x) ((y - bb.y) * h + bb.y)
  | .Q x1 y1 x y =>
      .Q ((x1 - bb.x) * w + bb.x) ((y1 - bb.y) * h + bb.y)
        ((x - bb.x) * w + bb.x) ((y - bb.y) * h + bb.y)
  | .Z => .Z

/-- roundness step of `applyParams`: pull control points toward the command's
end anchor by `lerp` with factor `t`. -/
def roundCmd (t : ℝ) : Cmd → Cmd
  | .C x1 y1 x2 y2 x y => .C (lerp x1 x t) (lerp y1 y t) (lerp x2 x t) (lerp y2 y t) x y
  | .Q x1 y1 x y => .Q (lerp x1 x t) (lerp y1 y t) x y
  | c => c

/-- GlyphModel.applyParams, acting on a copy of the original commands:
slant (only when `slant !== 0`), then scale about the bounding box top-left
(only when the box has positive width and height), then roundness (only when
`roundness > 0`). -/
noncomputable def applyParams (orig : List Cmd) (p : Params) : List Cmd :=
  let cmds1 :=
    if p.slant ≠ 0 then orig.map (slantCmd (Real.tan (p.slant * (Real.pi / 4))))
    else orig
  let bb := bboxOf cmds1
  let cmds2 :=
    if 0 < bb.w ∧ 0 < bb.h then cmds1.map (scaleCmd bb p.width p.height)
    else cmds1
  if 0 < p.roundness then cmds2.map (roundCmd p.roundness) else cmds2

/-! Seeded randomization.  `GlyphModel.randomize` calls p5.js `randomSeed`
and `random`, which are library code not in this repository. -/

/-- modulus of the p5.js generator, `2 ^ 32`. -/
def M32 : ℕ := 4294967296

/-- Modelled from the spec: p5.js `randomSeed`/`random` are third-party code
absent from this repository; spec section 4.5 requires "a specified,
fixed-algorithm pseudorandom generator (not a system entropy source)" seeded
with the given integer.  We model p5's documented linear congruential
generator: the state advances to `(1664525 * st + 1013904223) mod 2^32` and
the draw is the new state divided by `2^32`. -/
def lcgNext (st : ℕ) : ℕ := (1664525 * st + 1013904223) % M32

/-- the value `random()` returns when the generator state is `st`. -/
noncomputable def drawOf (st : ℕ) : ℝ := (lcgNext st : ℝ) / (M32 : ℝ)

/-- one perturbation `v + (random() - 0.5) * 20` taken from state `st`. -/
noncomputable def perturbed (st : ℕ) (v : ℝ) : ℝ := v + (drawOf st - 1 / 2) * 20

/-- perturbation of one command, drawing in the source's order
(`x`, `y`, then `x1`, `y1`, `x2`, `y2` as present); returns the generator
state after the draws together with the perturbed command. -/
noncomputable def randCmd (st : ℕ) : Cmd → ℕ × Cmd
  | .M x y => (lcgNext (lcgNext st), .M (perturbed st x) (perturbed (lcgNext st) y))
  | .L x y => (lcgNext (lcgNext st), .L (perturbed st x) (perturbed (lcgNext st) y))
  | .C x1 y1 x2 y2 x y =>
      let s1 := lcgNext st
      let s2 := lcgNext s1
      let s3 := lcgNext s2
      let s4 := lcgNext s3
      let s5 := lcgNext s4
      (lcgNext s5,
        .C (perturbed s2 x1) (perturbed s3 y1) (perturbed s4 x2) (perturbed s5 y2)
          (perturbed st x) (perturbed s1 y))
  | .Q x1 y1 x y =>
      let s1 := lcgNext st
      let s2 := lcgNext s1
      let s3 := lcgNext s2
      (lcgNext s3, .Q (perturbed s2 x1) (perturbed s3 y1) (perturbed st x) (perturbed s1 y))
  | .Z => (st, .Z)

/-- the loop body of `GlyphModel.randomize` over the command list, threading
the generator state in index order. -/
noncomputable def randomizeFrom : ℕ → List Cmd → List Cmd
  | _, [] => []
  | st, c :: rest =>
      let p := randCmd st c
      p.2 :: randomizeFrom p.1 rest

/-- GlyphModel.randomize(seed): seed the generator (`seed >>> 0`, i.e. the
seed reduced mod `2^32`) and perturb every coordinate of the working path. -/
noncomputable def randomize (seed : ℕ) (cmds : List Cmd) : List Cmd :=
  randomizeFrom (seed % M32) cmds

/-! GlyphModel state and history. -/

/-- one history snapshot `{path, params}` (the source stores a deep copy;
with value semantics the copy is the value itself). -/
structure Snap where
  path : List Cmd
  params : Params

/-- GlyphModel fields that the claims concern: `originalPath`, `path`,
`char`, `params`, `undoStack`, `redoStack`.  Stacks grow at the list's end
(`push` appends, `pop` removes the last element, `shift` the first). -/
structure Model where
  originalPath : List Cmd
  path : List Cmd
  char : Char
  params : Params
  undoStack : List Snap
  redoStack : List Snap

/-- history capacity `maxHist`. -/
def maxHist : ℕ := 60

/-- the state built by the GlyphModel constructor (both paths empty,
character 'A', default params, empty stacks). -/
def initModel : Model := ⟨[], [], 'A', defaultParams, [], []⟩

/-- GlyphModel.saveState: push a snapshot of `(path, params)`, `shift` the
oldest entry when the stack exceeds `maxHist`, and clear the redo stack. -/
def saveState (m : Model) : Model :=
  let pushed := m.undoStack ++ [⟨m.path, m.params⟩]
  { m with
    undoStack := if maxHist < pushed.length then pushed.tail else pushed,
    redoStack := [] }

/-- GlyphModel._load: no-op on a missing snapshot, otherwise restore `path`
and `params` from it (the UI sync and change event are view effects). -/
def load (m : Model) : Option Snap → Model
  | none => m
  | some s => { m with path := s.path, params := s.params }

/-- GlyphModel.undo: when more than one entry is present, pop the top of the
undo stack onto the redo stack and load the new top. -/
def undo (m : Model) : Model :=
  if 1 < m.undoStack.length then
    match m.undoStack.getLast? with
    | none => m
    | some s =>
        let m1 : Model :=
          { m with undoStack := m.undoStack.dropLast, redoStack := m.redoStack ++ [s] }
        load m1 m1.undoStack.getLast?
  else m

/-- GlyphModel.redo: when the redo stack is nonempty, pop its top, push it
back onto the undo stack, and load it. -/
def redo (m : Model) : Model :=
  match m.redoStack.getLast? with
  | none => m
  | some s =>
      load
        { m with redoStack := m.redoStack.dropLast, undoStack := m.undoStack ++ [s] }
        (some s)

/-- GlyphModel.reset: copy the original path back, restore default params,
clear both stacks, then `saveState`. -/
def reset (m : Model) : Model :=
  saveState
    { m with path := m.originalPath, params := defaultParams,
             undoStack := [], redoStack := [] }

/-- the hard-coded fallback outline built when no font is loaded:
`moveTo(0,0); lineTo(40,120); lineTo(80,0); close()`. -/
def fallbackPath : List Cmd := [.M 0 0, .L 40 120, .L 80 0, .Z]

/-- GlyphModel.generate(ch): ignore an empty character (`if (!ch) return`),
otherwise take the first character, produce the glyph outline from the font
when one is loaded (abstracted by `fontGlyph`) or the fallback triangle
otherwise, store it as `originalPath`, and `reset`. -/
def generate (fontGlyph : Option (Char → List Cmd)) (ch : String) (m : Model) : Model :=
  if ch = "" then m
  else
    let c0 := ch.toList.headD 'A'
    let orig :=
      match fontGlyph with
      | some f => f c0
      | none => fallbackPath
    reset { m with char := c0, originalPath := orig }

/-- GlyphModel.applyParams as a model operation: recompute the working path
from the original and commit a snapshot. -/
noncomputable def applyParamsOp (m : Model) : Model :=
  saveState { m with path := applyParams m.originalPath m.params }

/-- GlyphModel.randomize as a model operation: perturb the working path and
commit a snapshot. -/
noncomputable def randomizeOp (seed : ℕ) (m : Model) : Model :=
  saveState { m with path := randomize seed m.path }

/-! Editor: point references and `setPoint`. -/

/-- a point reference `{index, type}` as produced by `Editor.pointHit`:
`'anchor'`, `'c1'`, `'c2'` or `'q'`. -/
inductive PtRef where
  | anchor
  | c1
  | c2
  | q
deriving DecidableEq

/-- Editor.nextCurve's scan body: first index at or beyond `k` (in the list
suffix `l`) holding a cubic command. -/
def findCFrom : List Cmd → ℕ → Option ℕ
  | [], _ => none
  | c :: rest, k => if isC c then some k else findCFrom rest (k + 1)

/-- Editor.nextCurve(i): index of the first command of type `'C'` strictly
after `i`, if any (`-1` in the source becomes `none`). -/
def nextCurve (cmds : List Cmd) (i : ℕ) : Option ℕ :=
  findCFrom (cmds.drop (i + 1)) (i + 1)

/-- does the command at index `k` exist and have type `'C'`? -/
def isCat (cmds : List Cmd) (k : ℕ) : Bool :=
  ((cmds.get? k).map isC).getD false

/-- Editor.prevCurve(i): the source loop `for (k = i; k >= 0; k--)` starts at
`i` itself, so it returns `i` whenever `cmds[i]` is a cubic. -/
def prevCurve (cmds : List Cmd) : ℕ → Option ℕ
  | 0 => if isCat cmds 0 then some 0 else none
  | k + 1 => if isCat cmds (k + 1) then some (k + 1) else prevCurve cmds k

/-- the anchor branch of `setPoint`: write the new anchor coordinates, carry
the command's own `(x2, y2)` along when it is a cubic, and shift `(x1, y1)`
of the next cubic command by the same delta. -/
def setAnchor (c : Cmd) (x y dx dy : ℝ) : Cmd :=
  match c with
  | .M _ _ => .M x y
  | .L _ _ => .L x y
  | .C x1 y1 x2 y2 _ _ => .C x1 y1 (x2 + dx) (y2 + dy) x y
  | .Q x1 y1 _ _ => .Q x1 y1 x y
  | .Z => .Z

/-- `cmds[ni].x1 += dx; cmds[ni].y1 += dy` (only ever applied to a cubic,
since `nextCurve` returns cubic indices). -/
def shiftC1 (c : Cmd) (dx dy : ℝ) : Cmd :=
  match c with
  | .C x1 y1 x2 y2 xe ye => .C (x1 + dx) (y1 + dy) x2 y2 xe ye
  | .Q x1 y1 xe ye => .Q (x1 + dx) (y1 + dy) xe ye
  | c => c

/-- lines 470-474 of the source: given the anchor `(ax, ay)`, the opposite
control's current position `(ox, oy)` and the dragged control's new position
`(x, y)`, compute the mirrored position `anchor - dir/len * ol`, where
`ol = dist(anchor, opposite)` and `len = Math.hypot(dx, dy) || 1` (a zero
length is replaced by 1). -/
noncomputable def lockOpp (ax ay ox oy x y : ℝ) : ℝ × ℝ :=
  let dx := x - ax
  let dy := y - ay
  let ol := Real.sqrt ((ox - ax) ^ 2 + (oy - ay) ^ 2)
  let len0 := Real.sqrt (dx ^ 2 + dy ^ 2)
  let len := if len0 = 0 then 1 else len0
  (ax - dx / len * ol, ay - dy / len * ol)

/-- the `'anchor'` case of `Editor.setPoint`: a reference to a `Z` command is
never produced by `pointHit` (the source would read undefined fields there),
so the model leaves the list unchanged in that unreachable corner. -/
def setPointAnchor (cmds : List Cmd) (i : ℕ) (x y : ℝ) : List Cmd :=
  match cmds.get? i with
  | none => cmds
  | some c =>
    match getXY c with
    | none => cmds
    | some (x0, y0) =>
      let dx := x - x0
      let dy := y - y0
      let cmds1 := cmds.set i (setAnchor c x y dx dy)
      match nextCurve cmds i with
      | none => cmds1
      | some ni => cmds1.set ni (shiftC1 (cmds1.getD ni .Z) dx dy)

/-- Editor.setPoint(ref, x, y, lockCollinear) over `glyphModel.path.commands`.
For `'c1'` the source calls `prevCurve(ref.index)` whose scan starts at
`ref.index` itself; for `'c2'` it uses `nextCurve(ref.index)`.  The `'q'`
case never runs the collinear block. -/
noncomputable def setPoint (cmds : List Cmd) (i : ℕ) (r : PtRef) (x y : ℝ)
    (lock : Bool) : List Cmd :=
  match r with
  | .anchor => setPointAnchor cmds i x y
  | .q =>
    match cmds.get? i with
    | none => cmds
    | some c => cmds.set i (setC1 c x y)
  | .c1 =>
    match cmds.get? i with
    | none => cmds
    | some c =>
      let cmds1 := cmds.set i (setC1 c x y)
      if lock then
        match prevCurve cmds1 i with
        | none => cmds1
        | some pi =>
          match cmds1.get? pi with
          | none => cmds1
          | some ac =>
            match getXY ac, getC2 ac with
            | some (ax, ay), some (ox, oy) =>
              let np := lockOpp ax ay ox oy x y
              cmds1.set pi (setC2 ac np.1 np.2)
            | _, _ => cmds1
      else cmds1
  | .c2 =>
    match cmds.get? i with
    | none => cmds
    | some c =>
      let c2c := setC2 c x y
      let cmds1 := cmds.set i c2c
      if lock then
        match nextCurve cmds1 i with
        | none => cmds1
        | some ni =>
          match getXY c2c, cmds1.get? ni with
          | some (ax, ay), some oc =>
            match getC1 oc with
            | some (ox, oy) =>
              let np := lockOpp ax ay ox oy x y
              cmds1.set ni (setC1 oc np.1 np.2)
            | none => cmds1
          | _, _ => cmds1
      else cmds1

/-- a cubic or quadratic command whose control points coincide with its end
anchor (the shape roundness 1 must produce). -/
def ctrlOnAnchor : Cmd → Prop
  | .C x1 y1 x2 y2 x y => x1 = x ∧ y1 = y ∧ x2 = x ∧ y2 = y
  | .Q x1 y1 x y => x1 = x ∧ y1 = y
  | _ => True

/-- point edits performed by the editor between commits: the drag handlers
replace coordinates inside `path` without touching the stacks. -/
def editPath (f : List Cmd → List Cmd) (m : Model) : Model :=
  { m with path := f m.path }

/-- model states reachable from the constructor state through the operations
the UI and editor can trigger. -/
inductive Reachable : Model → Prop
  | init : Reachable initModel
  | gen (g : Option (Char → List Cmd)) (ch : String) {m : Model} :
      Reachable m → Reachable (generate g ch m)
  | resetOp {m : Model} : Reachable m → Reachable (reset m)
  | setParams (p : Params) {m : Model} : Reachable m → Reachable { m with params := p }
  | applyP {m : Model} : Reachable m → Reachable (applyParamsOp m)
  | rand (seed : ℕ) {m : Model} : Reachable m → Reachable (randomizeOp seed m)
  | edit (f : List Cmd → List Cmd) {m : Model} : Reachable m → Reachable (editPath f m)
  | save {m : Model} : Reachable m → Reachable (saveState m)
  | undoOp {m : Model} : Reachable m → Reachable (undo m)
  | redoOp {m : Model} : Reachable m → Reachable (redo m)

/-! Helper lemmas. -/

theorem scaleCmd_one (bb : Bbox) (c : Cmd) : scaleCmd bb 1 1 c = c := by
  cases c <;> simp only [scaleCmd] <;> norm_num

theorem roundCmd_one (c : Cmd) : ctrlOnAnchor (roundCmd 1 c) := by
  cases c <;> simp only [roundCmd, ctrlOnAnchor, lerp] <;> try trivial
  · exact ⟨by ring, by ring, by ring, by ring⟩
  · exact ⟨by ring, by ring⟩

theorem roundMap_collapse (l : List Cmd) (j : ℕ) :
    ctrlOnAnchor ((l.map (roundCmd 1)).getD j Cmd.Z) := by
  rcases h : (l.map (roundCmd 1)).get? j with _ | c
  · rw [List.getD_eq_get?, h]
    trivial
  · rw [List.getD_eq_get?, h]
    rw [List.get?_map] at h
    rcases Option.map_eq_some'.mp h with ⟨c0, _, rfl⟩
    exact roundCmd_one c0

theorem load_undoStack (m : Model) (o : Option Snap) : (load m o).undoStack = m.undoStack := by
  cases o <;> rfl

theorem load_redoStack (m : Model) (o : Option Snap) : (load m o).redoStack = m.redoStack := by
  cases o <;> rfl

theorem tail_concat_ne (l : List α) (a : α) (h : l ≠ []) :
    (l ++ [a]).tail = l.tail ++ [a] := by
  cases l with
  | nil => exact absurd rfl h
  | cons x xs => rfl

theorem saveState_sum (m : Model) (h : m.undoStack.length ≤ maxHist) :
    (saveState m).undoStack.length + (saveState m).redoStack.length ≤ maxHist := by
  simp only [saveState]
  split
  · simp only [List.length_tail, List.length_append, List.length_singleton,
      List.length_nil]
    omega
  · next hle =>
    simp only [List.length_append, List.length_singleton, List.length_nil, maxHist] at *
    omega

theorem undo_sum (m : Model) :
    (undo m).undoStack.length + (undo m).redoStack.length ≤
      m.undoStack.length + m.redoStack.length := by
  unfold undo
  split
  · next h1 =>
    rcases hL : m.undoStack.getLast? with _ | s
    · simp
    · simp only [load_undoStack, load_redoStack, List.length_dropLast,
        List.length_append, List.length_singleton]
      omega
  · omega

theorem redo_sum (m : Model) :
    (redo m).undoStack.length + (redo m).redoStack.length ≤
      m.undoStack.length + m.redoStack.length := by
  unfold redo
  rcases hL : m.redoStack.getLast? with _ | s
  · simp
  · have hne : m.redoStack ≠ [] := by
      intro h0
      rw [h0] at hL
      cases hL
    have hpos : 0 < m.redoStack.length := List.length_pos.mpr hne
    simp only [load_undoStack, load_redoStack, List.length_dropLast,
      List.length_append, List.length_singleton]
    omega

theorem reset_sum (m : Model) :
    (reset m).undoStack.length + (reset m).redoStack.length ≤ maxHist := by
  simp [reset, saveState, maxHist]

theorem reachable_sum {m : Model} (h : Reachable m) :
    m.undoStack.length + m.redoStack.length ≤ maxHist := by
  induction h with
  | init => simp [initModel, maxHist]
  | gen g ch _ ih =>
    unfold generate
    split
    · exact ih
    · exact reset_sum _
  | resetOp _ _ => exact reset_sum _
  | setParams p _ ih => exact ih
  | @applyP m _ ih => exact saveState_sum _ (show m.undoStack.length ≤ maxHist by omega)
  | @rand seed m _ ih => exact saveState_sum _ (show m.undoStack.length ≤ maxHist by omega)
  | edit f _ ih => exact ih
  | @save m _ ih => exact saveState_sum _ (show m.undoStack.length ≤ maxHist by omega)
  | undoOp _ ih => exact le_trans (undo_sum _) ih
  | redoOp _ ih => exact le_trans (redo_sum _) ih

theorem get?_set_self (l : List α) (i : ℕ) (a : α) (h : i < l.length) :
    (l.set i a).get? i = some a := by
  induction l generalizing i with
  | nil => simp at h
  | cons x xs ih =>
    cases i with
    | zero => rfl
    | succ j => exact ih j (by simpa using h)

theorem findCFrom_ge : ∀ (l : List Cmd) (k j : ℕ), findCFrom l k = some j → k ≤ j := by
  intro l
  induction l with
  | nil =>
    intro k j h
    cases h
  | cons c rest ih =>
    intro k j h
    simp only [findCFrom] at h
    split at h
    · injection h with h2
      omega
    · have := ih (k + 1) j h
      omega

theorem nextCurve_gt {cmds : List Cmd} {i ni : ℕ} (h : nextCurve cmds i = some ni) :
    i < ni :=
  lt_of_lt_of_le (Nat.lt_succ_self i) (findCFrom_ge _ _ _ h)

theorem nextCurve_set (cmds : List Cmd) (i : ℕ) (a : Cmd) :
    nextCurve (cmds.set i a) i = nextCurve cmds i := by
  unfold nextCurve
  rw [List.drop_set_of_lt a cmds (Nat.lt_succ_self i)]

theorem getXY_setAnchor (c : Cmd) (x y dx dy x0 y0 : ℝ)
    (h : getXY c = some (x0, y0)) :
    getXY (setAnchor c x y dx dy) = some (x, y) := by
  cases c <;> simp [getXY, setAnchor] at h ⊢

/-! Claim theorems. -/

/-- C4: with width = 1, height = 1, slant = 0, roundness = 0 (any weight),
`applyParams` returns a path coordinate-identical to its input. -/
theorem claimC4_identity (cmds : List Cmd) (w : ℝ) :
    applyParams cmds ⟨1, 1, w, 0, 0⟩ = cmds := by
  simp only [applyParams]
  norm_num
  intro _ _
  rw [show scaleCmd (bboxOf cmds) 1 1 = id from funext (scaleCmd_one (bboxOf cmds)),
    List.map_id]

/-- C5: with roundness = 1, `applyParams` places every cubic control point
(both of them) and every quadratic control point exactly on the command's
end anchor. -/
theorem claimC5_roundness_collapse (cmds : List Cmd) (p : Params)
    (h : p.roundness = 1) :
    ∀ j, ctrlOnAnchor ((applyParams cmds p).getD j Cmd.Z) := by
  intro j
  simp only [applyParams, h]
  rw [if_pos (by norm_num : (0 : ℝ) < 1)]
  exact roundMap_collapse _ j

theorem claimC5_witness :
    ctrlOnAnchor ((applyParams [Cmd.C 1 2 3 4 5 6] ⟨1, 1, 0, 0, 1⟩).getD 0 Cmd.Z) :=
  claimC5_roundness_collapse [Cmd.C 1 2 3 4 5 6] ⟨1, 1, 0, 0, 1⟩ rfl 0

/-- C8: the bounding box of the fallback triangle produced by `generate`
when no font is available is exactly `{x:0, y:0, w:80, h:120}`. -/
theorem claimC8_bbox (m : Model) :
    bboxOf (generate none "A" m).originalPath = ⟨0, 0, 80, 120⟩ := by
  have hA : ("A" : String) ≠ "" := by decide
  simp only [generate, if_neg hA, reset, saveState]
  simp only [bboxOf, allPoints, fallbackPath, cmdPoints, List.map, List.flatten]
  norm_num [min_def, max_def]

/-- C9: `generate` with an empty character string leaves the model entirely
unchanged. -/
theorem claimC9_generate_empty (g : Option (Char → List Cmd)) (m : Model) :
    generate g "" m = m := by
  simp [generate]

/-- C3: `undo` is a no-op when the undo stack has at most one entry, and
otherwise pops the top onto the redo stack and restores path and params from
the new top; `redo` is a no-op on an empty redo stack, and otherwise pops a
snapshot, pushes it back onto the undo stack, and restores the model from
it. -/
theorem claimC3_undo_redo (m : Model) :
    (m.undoStack.length ≤ 1 → undo m = m)
    ∧ (∀ rest s, m.undoStack = rest ++ [s] → rest ≠ [] →
        ∃ s2, rest.getLast? = some s2 ∧
          undo m = { m with
            undoStack := rest,
            redoStack := m.redoStack ++ [s],
            path := s2.path,
            params := s2.params })
    ∧ (m.redoStack = [] → redo m = m)
    ∧ (∀ rest s, m.redoStack = rest ++ [s] →
        redo m = { m with
          redoStack := rest,
          undoStack := m.undoStack ++ [s],
          path := s.path,
          params := s.params }) := by
  refine ⟨?_, ?_, ?_, ?_⟩
  · intro h
    unfold undo
    rw [if_neg (by omega)]
  · intro rest s hu hrest
    refine ⟨rest.getLast hrest, List.getLast?_eq_getLast rest hrest, ?_⟩
    have hlen : 1 < m.undoStack.length := by
      rw [hu]
      simp only [List.length_append, List.length_singleton]
      have := List.length_pos.mpr hrest
      omega
    unfold undo
    rw [if_pos hlen, hu, List.getLast?_concat]
    simp only [List.dropLast_concat, List.getLast?_eq_getLast rest hrest, load]
  · intro h
    unfold redo
    rw [h]
    rfl
  · intro rest s hr
    unfold redo
    rw [hr, List.getLast?_concat]
    simp only [List.dropLast_concat, load]

theorem claimC3_witness :
    undo (⟨[], [Cmd.M 1 2], 'A', ⟨2, 1, 0, 0, 0⟩,
            [⟨[], defaultParams⟩, ⟨[Cmd.M 1 2], ⟨2, 1, 0, 0, 0⟩⟩], []⟩ : Model)
        = ⟨[], [], 'A', defaultParams, [⟨[], defaultParams⟩],
            [⟨[Cmd.M 1 2], ⟨2, 1, 0, 0, 0⟩⟩]⟩
    ∧ redo (⟨[], [], 'A', defaultParams, [⟨[], defaultParams⟩],
            [⟨[Cmd.M 1 2], ⟨2, 1, 0, 0, 0⟩⟩]⟩ : Model)
        = ⟨[], [Cmd.M 1 2], 'A', ⟨2, 1, 0, 0, 0⟩,
            [⟨[], defaultParams⟩, ⟨[Cmd.M 1 2], ⟨2, 1, 0, 0, 0⟩⟩], []⟩ := by
  constructor
  · obtain ⟨s2, hs2, heq⟩ :=
      (claimC3_undo_redo (⟨[], [Cmd.M 1 2], 'A', ⟨2, 1, 0, 0, 0⟩,
          [⟨[], defaultParams⟩, ⟨[Cmd.M 1 2], ⟨2, 1, 0, 0, 0⟩⟩], []⟩ : Model)).2.1
        [⟨[], defaultParams⟩] ⟨[Cmd.M 1 2], ⟨2, 1, 0, 0, 0⟩⟩ rfl (by simp)
    have h2 : s2 = ⟨[], defaultParams⟩ := by
      simpa using hs2.symm
    subst h2
    simpa using heq
  · have heq :=
      (claimC3_undo_redo (⟨[], [], 'A', defaultParams, [⟨[], defaultParams⟩],
          [⟨[Cmd.M 1 2], ⟨2, 1, 0, 0, 0⟩⟩]⟩ : Model)).2.2.2
        [] ⟨[Cmd.M 1 2], ⟨2, 1, 0, 0, 0⟩⟩ rfl
    simpa using heq

/-- C7: on every reachable model state the undo stack holds at most 60
entries, and `saveState` always pushes the current `(path, params)` snapshot
on top, clears the redo stack, and drops the oldest entry when the stack is
full. -/
theorem claimC7_history_bound (m : Model) (h : Reachable m) :
    m.undoStack.length ≤ 60
    ∧ (saveState m).undoStack.getLast? = some ⟨m.path, m.params⟩
    ∧ (saveState m).redoStack = []
    ∧ (m.undoStack.length = 60 →
        (saveState m).undoStack = m.undoStack.tail ++ [⟨m.path, m.params⟩]) := by
  have hb := reachable_sum h
  refine ⟨by simpa [maxHist] using (by omega : m.undoStack.length ≤ maxHist), ?_, rfl, ?_⟩
  · simp only [saveState]
    split
    · next hgt =>
      have hne : m.undoStack ≠ [] := by
        intro h0
        rw [h0] at hgt
        simp [maxHist] at hgt
      rw [tail_concat_ne _ _ hne, List.getLast?_concat]
    · exact List.getLast?_concat _
  · intro h60
    have hne : m.undoStack ≠ [] := by
      intro h0
      rw [h0] at h60
      cases h60
    simp only [saveState]
    rw [if_pos (by simp [List.length_append, h60, maxHist])]
    exact tail_concat_ne _ _ hne

theorem claimC7_witness :
    initModel.undoStack.length ≤ 60
    ∧ (saveState initModel).undoStack.getLast? = some ⟨initModel.path, initModel.params⟩
    ∧ (saveState initModel).redoStack = []
    ∧ (initModel.undoStack.length = 60 →
        (saveState initModel).undoStack
          = initModel.undoStack.tail ++ [⟨initModel.path, initModel.params⟩]) :=
  claimC7_history_bound initModel Reachable.init

/-- C1 counterexample: for the path `[M(0,0), Q(1,1,2,0)]` the following
curve command after the anchor at index 0 is the quadratic at index 1, but
moving the anchor by (5,5) does not translate that control point by the same
delta (the source's `nextCurve` only looks for cubic commands). -/
theorem claimC1_counterexample :
    getC1 ((setPoint [Cmd.M 0 0, Cmd.Q 1 1 2 0] 0 .anchor 5 5 false).getD 1 Cmd.Z)
      ≠ some (1 + (5 - 0), 1 + (5 - 0)) := by
  have h : getC1 ((setPoint [Cmd.M 0 0, Cmd.Q 1 1 2 0] 0 .anchor 5 5 false).getD 1 Cmd.Z)
      = some (1, 1) := rfl
  rw [h]
  intro hcontra
  rw [Option.some.injEq, Prod.mk.injEq] at hcontra
  have h1 := hcontra.1
  norm_num at h1

/-- C1 (amended): moving an anchor through `setPoint` sets the anchor to the
new position, translates the same command's second control point by the
identical delta when the command is a cubic, translates the first control
point of the next cubic command (if any) by the identical delta, leaves a
quadratic's own control point unmoved, and changes no other command. -/
theorem claimC1_amended (cmds : List Cmd) (i : ℕ) (x y x0 y0 : ℝ) (lock : Bool)
    (c : Cmd) (hc : cmds.get? i = some c) (hxy : getXY c = some (x0, y0)) :
    (setPoint cmds i .anchor x y lock).length = cmds.length
    ∧ getXY ((setPoint cmds i .anchor x y lock).getD i Cmd.Z) = some (x, y)
    ∧ (∀ x1 y1 x2 y2, c = Cmd.C x1 y1 x2 y2 x0 y0 →
        (setPoint cmds i .anchor x y lock).getD i Cmd.Z
          = Cmd.C x1 y1 (x2 + (x - x0)) (y2 + (y - y0)) x y)
    ∧ (∀ x1 y1, c = Cmd.Q x1 y1 x0 y0 →
        (setPoint cmds i .anchor x y lock).getD i Cmd.Z = Cmd.Q x1 y1 x y)
    ∧ (∀ ni x1 y1 x2 y2 xe ye, nextCurve cmds i = some ni →
        cmds.get? ni = some (Cmd.C x1 y1 x2 y2 xe ye) →
        (setPoint cmds i .anchor x y lock).getD ni Cmd.Z
          = Cmd.C (x1 + (x - x0)) (y1 + (y - y0)) x2 y2 xe ye)
    ∧ (∀ j, j ≠ i → nextCurve cmds i ≠ some j →
        (setPoint cmds i .anchor x y lock).get? j = cmds.get? j) := by
  have hi : i < cmds.length := (List.get?_eq_some.mp hc).1
  have hsp : setPoint cmds i .anchor x y lock = setPointAnchor cmds i x y := rfl
  rcases hn : nextCurve cmds i with _ | ni
  · have hE : setPointAnchor cmds i x y
        = cmds.set i (setAnchor c x y (x - x0) (y - y0)) := by
      simp only [setPointAnchor, hc, hxy, hn]
    rw [hsp, hE]
    refine ⟨List.length_set _ _ _, ?_, ?_, ?_, ?_, ?_⟩
    · rw [List.getD_eq_get?, get?_set_self _ _ _ hi]
      exact getXY_setAnchor c x y _ _ x0 y0 hxy
    · intro x1 y1 x2 y2 hcC
      subst hcC
      rw [List.getD_eq_get?, get?_set_self _ _ _ hi]
      rfl
    · intro x1 y1 hcQ
      subst hcQ
      rw [List.getD_eq_get?, get?_set_self _ _ _ hi]
      rfl
    · intro ni _ _ _ _ _ _ hn2
      exact Option.noConfusion hn2
    · intro j hj _
      exact List.get?_set_ne _ _ (Ne.symm hj)
  · have hE : setPointAnchor cmds i x y
        = (cmds.set i (setAnchor c x y (x - x0) (y - y0))).set ni
            (shiftC1 ((cmds.set i (setAnchor c x y (x - x0) (y - y0))).getD ni Cmd.Z)
              (x - x0) (y - y0)) := by
      simp only [setPointAnchor, hc, hxy, hn]
    have hlt : i < ni := nextCurve_gt hn
    rw [hsp, hE]
    refine ⟨by simp [List.length_set], ?_, ?_, ?_, ?_, ?_⟩
    · rw [List.getD_eq_get?, List.get?_set_ne _ _ (by omega : ni ≠ i),
        get?_set_self _ _ _ hi]
      exact getXY_setAnchor c x y _ _ x0 y0 hxy
    · intro x1 y1 x2 y2 hcC
      subst hcC
      rw [List.getD_eq_get?, List.get?_set_ne _ _ (by omega : ni ≠ i),
        get?_set_self _ _ _ hi]
      rfl
    · intro x1 y1 hcQ
      subst hcQ
      rw [List.getD_eq_get?, List.get?_set_ne _ _ (by omega : ni ≠ i),
        get?_set_self _ _ _ hi]
      rfl
    · intro ni2 x1 y1 x2 y2 xe ye hn2 hni
      injection hn2 with hn3
      subst hn3
      have hni2 : ni < cmds.length := (List.get?_eq_some.mp hni).1
      have hgd : (cmds.set i (setAnchor c x y (x - x0) (y - y0))).getD ni Cmd.Z
          = Cmd.C x1 y1 x2 y2 xe ye := by
        rw [List.getD_eq_get?, List.get?_set_ne _ _ (by omega : i ≠ ni), hni]
        rfl
      rw [hgd, List.getD_eq_get?,
        get?_set_self _ _ _ (by simpa using hni2)]
      rfl
    · intro j hj hjn
      have hjni : j ≠ ni := fun h0 => hjn (congrArg some h0.symm)
      rw [List.get?_set_ne _ _ (Ne.symm hjni), List.get?_set_ne _ _ (Ne.symm hj)]

theorem claimC1_witness :
    (setPoint [Cmd.M 0 0, Cmd.C 1 1 2 2 3 0] 0 .anchor 5 5 false).getD 1 Cmd.Z
      = Cmd.C (1 + (5 - 0)) (1 + (5 - 0)) 2 2 3 0 :=
  (claimC1_amended [Cmd.M 0 0, Cmd.C 1 1 2 2 3 0] 0 5 5 0 0 false (Cmd.M 0 0)
    rfl rfl).2.2.2.2.1 1 1 1 2 2 3 0 rfl rfl

theorem lockOpp_self : ∀ a b u v : ℝ, lockOpp a b u v a b = (a, b) := by
  intro a b u v
  simp only [lockOpp, sub_self]
  norm_num

/-- C10: when the dragged control point is placed exactly on the anchor the
collinear-lock code uses, the `|| 1` guard replaces the zero length by 1 and
the opposite control point is assigned the anchor position itself — a
well-defined, finite result.  Stated for the mirroring formula and for a
full `setPoint` drag of a cubic's second control onto its end anchor. -/
theorem claimC10_degenerate_lock (cmds : List Cmd) (i ni : ℕ)
    (x1 y1 x2 y2 ax ay ox oy bx2 by2 ex ey : ℝ)
    (hc : cmds.get? i = some (Cmd.C x1 y1 x2 y2 ax ay))
    (hn : nextCurve cmds i = some ni)
    (ho : cmds.get? ni = some (Cmd.C ox oy bx2 by2 ex ey)) :
    (∀ a b u v : ℝ, lockOpp a b u v a b = (a, b))
    ∧ (setPoint cmds i .c2 ax ay true).getD ni Cmd.Z = Cmd.C ax ay bx2 by2 ex ey
    ∧ (setPoint cmds i .c2 ax ay true).getD i Cmd.Z = Cmd.C x1 y1 ax ay ax ay := by
  have hlt : i < ni := nextCurve_gt hn
  have hni : ni < cmds.length := (List.get?_eq_some.mp ho).1
  have hi : i < cmds.length := (List.get?_eq_some.mp hc).1
  have hset : nextCurve (cmds.set i (Cmd.C x1 y1 ax ay ax ay)) i = some ni := by
    rw [nextCurve_set, hn]
  have hE : setPoint cmds i .c2 ax ay true
      = (cmds.set i (Cmd.C x1 y1 ax ay ax ay)).set ni (Cmd.C ax ay bx2 by2 ex ey) := by
    simp only [setPoint, hc, setC2, hset, getXY,
      List.get?_set_ne _ _ (show i ≠ ni by omega), ho, getC1, setC1, lockOpp_self,
      if_true]
  refine ⟨lockOpp_self, ?_, ?_⟩
  · rw [hE, List.getD_eq_get?, get?_set_self _ _ _ (by simpa using hni)]
    rfl
  · rw [hE, List.getD_eq_get?, List.get?_set_ne _ _ (show ni ≠ i by omega),
      get?_set_self _ _ _ hi]
    rfl

theorem claimC10_witness :
    (setPoint [Cmd.M 0 0, Cmd.C 1 1 2 2 3 0, Cmd.C 4 4 5 5 6 0] 1 .c2 3 0 true).getD
        2 Cmd.Z
      = Cmd.C 3 0 5 5 6 0 :=
  (claimC10_degenerate_lock [Cmd.M 0 0, Cmd.C 1 1 2 2 3 0, Cmd.C 4 4 5 5 6 0]
    1 2 1 1 2 2 3 0 4 4 5 5 6 0 rfl rfl rfl).2.1

/-- C2: evaluation of the code at the failing input.  Dragging `c1` of the
cubic at index 2 to (4,0) with the collinear lock on leaves the previous
cubic (index 1) untouched — its second control stays at (2,2) instead of
being mirrored across the shared anchor (3,0) — and instead mirrors the
dragged cubic's own second control across its own end anchor (6,0), moving
it from (6,5) to (11,0): `prevCurve` starts scanning at the dragged index
itself, so it always returns the dragged cubic. -/
theorem claimC2_eval :
    setPoint [Cmd.M 0 0, Cmd.C 1 1 2 2 3 0, Cmd.C 4 (-1) 6 5 6 0] 2 .c1 4 0 true
      = [Cmd.M 0 0, Cmd.C 1 1 2 2 3 0, Cmd.C 4 0 11 0 6 0] := by
  have h25 : Real.sqrt (((6 : ℝ) - 6) ^ 2 + ((5 : ℝ) - 0) ^ 2) = 5 := by
    rw [show ((6 : ℝ) - 6) ^ 2 + ((5 : ℝ) - 0) ^ 2 = 5 ^ 2 by norm_num,
      Real.sqrt_sq (by norm_num : (0 : ℝ) ≤ 5)]
  have h4 : Real.sqrt (((4 : ℝ) - 6) ^ 2 + ((0 : ℝ) - 0) ^ 2) = 2 := by
    rw [show ((4 : ℝ) - 6) ^ 2 + ((0 : ℝ) - 0) ^ 2 = 2 ^ 2 by norm_num,
      Real.sqrt_sq (by norm_num : (0 : ℝ) ≤ 2)]
  have hlock : lockOpp 6 0 6 5 4 0 = ((11 : ℝ), (0 : ℝ)) := by
    simp only [lockOpp, h25, h4]
    rw [if_neg (by norm_num : ¬((2 : ℝ) = 0))]
    norm_num
  have step1 : setPoint [Cmd.M 0 0, Cmd.C 1 1 2 2 3 0, Cmd.C 4 (-1) 6 5 6 0] 2 .c1 4 0 true
      = [Cmd.M 0 0, Cmd.C 1 1 2 2 3 0,
          Cmd.C 4 0 (lockOpp 6 0 6 5 4 0).1 (lockOpp 6 0 6 5 4 0).2 6 0] := rfl
  rw [step1, hlock]

theorem lcgNext_lt (st : ℕ) : lcgNext st < M32 :=
  Nat.mod_lt _ (by norm_num [M32])

theorem coprime_lcg : Nat.gcd M32 1664525 = 1 := by
  have h3 : Nat.Coprime 1664525 (2 ^ 32) := Nat.Coprime.pow_right 32 (by decide)
  have h4 : (2 : ℕ) ^ 32 = M32 := by norm_num [M32]
  rw [h4] at h3
  exact Nat.coprime_comm.mp h3

theorem lcgNext_inj {a b : ℕ} (ha : a < M32) (hb : b < M32)
    (h : lcgNext a = lcgNext b) : a = b := by
  have hm : (1664525 * a + 1013904223) ≡ (1664525 * b + 1013904223) [MOD M32] := h
  have hm2 := Nat.ModEq.add_right_cancel' 1013904223 hm
  have hm3 := Nat.ModEq.cancel_left_of_coprime coprime_lcg hm2
  have hm4 : a % M32 = b % M32 := hm3
  rwa [Nat.mod_eq_of_lt ha, Nat.mod_eq_of_lt hb] at hm4

theorem perturbed_ne {s t : ℕ} (hs : s < M32) (ht : t < M32) (hne : s ≠ t) (v : ℝ) :
    perturbed s v ≠ perturbed t v := by
  intro h
  apply hne
  apply lcgNext_inj hs ht
  have h1 : drawOf s = drawOf t := by
    unfold perturbed at h
    have h2 := add_left_cancel h
    have h3 := mul_right_cancel₀ (by norm_num : (20 : ℝ) ≠ 0) h2
    linarith
  unfold drawOf at h1
  have hM : ((M32 : ℕ) : ℝ) ≠ 0 := by norm_num [M32]
  field_simp at h1
  exact_mod_cast h1

theorem randCmd_ne {s t : ℕ} (hs : s < M32) (ht : t < M32) (hne : s ≠ t)
    {c : Cmd} (hz : c ≠ Cmd.Z) : (randCmd s c).2 ≠ (randCmd t c).2 := by
  cases c with
  | Z => exact absurd rfl hz
  | M xc yc =>
    intro h
    simp only [randCmd] at h
    injection h with h1 _
    exact perturbed_ne hs ht hne xc h1
  | L xc yc =>
    intro h
    simp only [randCmd] at h
    injection h with h1 _
    exact perturbed_ne hs ht hne xc h1
  | C a b a2 b2 xc yc =>
    intro h
    simp only [randCmd] at h
    injection h with _ _ _ _ h5 _
    exact perturbed_ne hs ht hne xc h5
  | Q a b xc yc =>
    intro h
    simp only [randCmd] at h
    injection h with _ _ h3 _
    exact perturbed_ne hs ht hne xc h3

theorem randomizeFrom_ne : ∀ (cmds : List Cmd) {s t : ℕ}, s < M32 → t < M32 → s ≠ t →
    (∃ c ∈ cmds, c ≠ Cmd.Z) → randomizeFrom s cmds ≠ randomizeFrom t cmds := by
  intro cmds
  induction cmds with
  | nil =>
    rintro s t _ _ _ ⟨c, hc, _⟩ _
    cases hc
  | cons c rest ih =>
    rintro s t hs ht hne ⟨c0, hc0, hz0⟩ h
    simp only [randomizeFrom] at h
    by_cases hz : c = Cmd.Z
    · subst hz
      rw [show randCmd s Cmd.Z = (s, Cmd.Z) from rfl,
        show randCmd t Cmd.Z = (t, Cmd.Z) from rfl] at h
      injection h with _ htl
      rcases List.mem_cons.mp hc0 with h0 | h0
      · exact hz0 h0
      · exact ih hs ht hne ⟨c0, h0, hz0⟩ htl
    · injection h with hhd _
      exact randCmd_ne hs ht hne hz hhd

theorem randomizeFrom_z : ∀ (cmds : List Cmd) (st j : ℕ),
    cmds.getD j Cmd.Z = Cmd.Z → (randomizeFrom st cmds).getD j Cmd.Z = Cmd.Z := by
  intro cmds
  induction cmds with
  | nil =>
    intro st j h
    simp [randomizeFrom]
  | cons c rest ih =>
    intro st j h
    cases j with
    | zero =>
      rw [List.getD_cons_zero] at h
      subst h
      rfl
    | succ j =>
      rw [List.getD_cons_succ] at h
      simp only [randomizeFrom, List.getD_cons_succ]
      exact ih _ j h

/-- C6 counterexample: `randomize` with two different seeds can return
identical coordinates — on a path with no perturbable coordinates (a lone
Close command) any two seeds agree, and the seeds 0 and 2^32 collapse to the
same generator state, so they agree on every path. -/
theorem claimC6_counterexample :
    ((1 : ℕ) ≠ 2 ∧ randomize 1 [Cmd.Z] = randomize 2 [Cmd.Z])
    ∧ ((0 : ℕ) ≠ 4294967296
        ∧ randomize 0 [Cmd.M 0 0] = randomize 4294967296 [Cmd.M 0 0]) :=
  ⟨⟨by norm_num, rfl⟩, ⟨by norm_num, rfl⟩⟩

/-- C6 (amended): `randomize` depends only on the seed's residue mod 2^32
(in particular two runs with the same seed give identical coordinates),
Close commands are never perturbed, and two seeds with distinct residues
mod 2^32 give different coordinates whenever the path has at least one
non-Close command. -/
theorem claimC6_amended (s1 s2 : ℕ) (cmds : List Cmd) :
    (s1 % M32 = s2 % M32 → randomize s1 cmds = randomize s2 cmds)
    ∧ (∀ j, cmds.getD j Cmd.Z = Cmd.Z → (randomize s1 cmds).getD j Cmd.Z = Cmd.Z)
    ∧ ((∃ c ∈ cmds, c ≠ Cmd.Z) → s1 % M32 ≠ s2 % M32 →
        randomize s1 cmds ≠ randomize s2 cmds) := by
  refine ⟨?_, ?_, ?_⟩
  · intro h
    unfold randomize
    rw [h]
  · intro j hj
    exact randomizeFrom_z cmds _ j hj
  · intro hex hne
    unfold randomize
    exact randomizeFrom_ne cmds (Nat.mod_lt _ (by norm_num [M32]))
      (Nat.mod_lt _ (by norm_num [M32])) hne hex

theorem claimC6_witness :
    randomize 1 [Cmd.M 0 0] ≠ randomize 2 [Cmd.M 0 0] :=
  (claimC6_amended 1 2 [Cmd.M 0 0]).2.2
    ⟨Cmd.M 0 0, List.mem_singleton_self _, fun h => Cmd.noConfusion h⟩
    (by decide)

end LetterPlayground
